import Mathlib

/-!
Verification of the mlir-opt completion helper (`py/mlir_opt_comp_helper.py`).

The script parses the help output of an MLIR optimizer binary into option
records and renders them as zsh completion specs, with a small on-disk cache
keyed by the binary.  This file gives a shallow embedding of the pure core
(sanitizer, option token decoder, help parser, renderers, payload builder)
and of the cache decision logic of `get_data`, and proves or refutes the
specified properties.

Strings are modelled as `List Char`; the Python string operations used by the
source (`strip`, `lstrip`, `rstrip`, `partition`, `split`, `splitlines`,
`replace`, `startswith`) are given explicit executable models below.
-/

set_option maxHeartbeats 2000000
set_option maxRecDepth 100000

namespace MlirComp

/-- Strings are modelled as lists of characters. -/
abbrev Str := List Char

/-- Python whitespace test, restricted to the ASCII whitespace characters
that can occur in help text (`str.strip` and friends strip these). -/
def isWs (c : Char) : Bool :=
  c == ' ' || c == '\t' || c == '\n' || c == '\r' || c == '\x0b' || c == '\x0c'

/-- Python `str.lstrip()`. -/
def pyLStrip (l : Str) : Str := l.dropWhile isWs

/-- Remove the maximal trailing run of characters satisfying `p`
(the shape of Python's `str.rstrip`). -/
def dropEnd (p : Char → Bool) : Str → Str
  | [] => []
  | c :: rest =>
      let r := dropEnd p rest
      if r = [] && p c then [] else c :: r

/-- Python `str.rstrip()`. -/
def pyRStrip (l : Str) : Str := dropEnd isWs l

/-- Python `str.strip()`. -/
def pyStrip (l : Str) : Str := pyRStrip (pyLStrip l)

/-- Python `str.lstrip(c)` for a one-character strip set. -/
def pyLStripChar (c : Char) (l : Str) : Str := l.dropWhile (· == c)

/-- Python `str.rstrip(c)` for a one-character strip set. -/
def pyRStripChar (c : Char) (l : Str) : Str := dropEnd (· == c) l

/-- Collapse adjacent spaces into one (the inner step of the sanitizer's
whitespace-run collapsing). -/
def squeeze : Str → Str
  | [] => []
  | [c] => [c]
  | a :: b :: rest =>
      if a = ' ' && b = ' ' then squeeze (b :: rest) else a :: squeeze (b :: rest)

/-- `sanitize` from the source: strip, then replace every whitespace run by a
single space (`re.sub(r"\s+", " ", text.strip())`). -/
def sanitize (text : Str) : Str :=
  squeeze ((pyStrip text).map (fun c => if isWs c then ' ' else c))

/-- Does `l` start with `pat` (Python `str.startswith`)? -/
def leadsWith : Str → Str → Bool
  | [], _ => true
  | _ :: _, [] => false
  | p :: ps, c :: cs => p == c && leadsWith ps cs

/-- Split `l` at the first occurrence of `sep`, returning the part before and
the part after; `none` when `sep` does not occur.  This models Python's
`str.partition(sep)` (whose middle component only signals found-ness). -/
def splitFirst (sep : Str) : Str → Option (Str × Str)
  | [] => if leadsWith sep [] then some ([], []) else none
  | c :: rest =>
      if leadsWith sep (c :: rest) then some ([], (c :: rest).drop sep.length)
      else (splitFirst sep rest).map (fun p => (c :: p.1, p.2))

/-- Python `str.partition(sep)` collapsed to (before, after): when `sep` is
absent the before-part is the whole string and the after-part is empty. -/
def pyPartition (sep l : Str) : Str × Str :=
  match splitFirst sep l with
  | some (b, a) => (b, a)
  | none => (l, [])

/-- First whitespace-delimited token of a string with no leading whitespace
(`str.split()[0]` for such strings). -/
def firstTok (l : Str) : Str := l.takeWhile (fun c => !(isWs c))

/-- Auxiliary accumulator for `pySplitlines`. -/
def splitlinesAux (cur : Str) : Str → List Str
  | [] => if cur.isEmpty then [] else [cur.reverse]
  | c :: rest =>
      if c = '\n' then cur.reverse :: splitlinesAux [] rest
      else splitlinesAux (c :: cur) rest

/-- Python `str.splitlines()` for newline-separated text (the help text in
scope uses `\n` line breaks only). -/
def pySplitlines (l : Str) : List Str := splitlinesAux [] l

/-- Does `pat` occur as a contiguous substring of `l`? -/
def hasSub (pat : Str) : Str → Bool
  | [] => leadsWith pat []
  | c :: rest => leadsWith pat (c :: rest) || hasSub pat rest

/-! ## Data model -/

/-- One case in an option that has multiple possible values. -/
structure Choice where
  value : Str
  description : Str
deriving DecidableEq, Repr

/-- `OptionCategory` from the source. -/
inductive OptionCategory where
  | GENERIC
  | MLIR_OPTION
  | MLIR_PASS
  | MLIR_PASS_PIPELINE
  | LLVM
deriving DecidableEq, Repr

/-- One option of an MLIR pass (`PassOption` in the source). -/
structure PassOption where
  name : Str
  style : Str
  description : Str
  value_hint : Str
  choices : List Choice
deriving DecidableEq, Repr

/-- A top-level mlir-opt option (`OptionRecord` in the source). -/
structure OptionRecord where
  name : Str
  category : OptionCategory
  style : Str
  description : Str
  value_hint : Str
  choices : List Choice
  sub_options : List PassOption
deriving DecidableEq, Repr

/-- Result of `decode_option` (the source returns the 4-tuple
`(name, insert_text, style, value_hint)`). -/
structure Decoded where
  name : Str
  insert_text : Str
  style : Str
  value_hint : Str
deriving DecidableEq, Repr

/-- `decode_option` from the source.  Note that the remainder is computed by
slicing the original argument at the first token's length, exactly as the
source does (`option_part[len(token):]`). -/
def decode_option (option_part : Str) : Decoded :=
  let trimmed := pyLStrip option_part
  if trimmed = [] then ⟨[], [], "flag".data, []⟩
  else
    let token := firstTok trimmed
    let remainder := pyStrip (option_part.drop token.length)
    match splitFirst ['='] token with
    | some (pre, tail0) =>
        let name := pyRStripChar '[' pre
        let tail := pyRStripChar ']' tail0
        let value_hint :=
          if tail ≠ [] then tail
          else if remainder.head? = some '<' then firstTok remainder
          else []
        ⟨pyRStripChar ',' name, name ++ "=".data, "attached".data, value_hint⟩
    | none =>
        if remainder.head? = some '<' then
          ⟨pyRStripChar ',' token, token, "separate".data, firstTok remainder⟩
        else
          ⟨pyRStripChar ',' token, token, "flag".data, []⟩

/-! ## Help parser state machine -/

/-- `HelpState` from the source. -/
inductive HelpState where
  | GENERAL_LLVM
  | MLIR_PASSES
  | MLIR_PIPELINES
  | GENERIC_OPTIONS
deriving DecidableEq, Repr

/-- `HelpState.new_state_on_header` from the source. -/
def HelpState.new_state_on_header (s : HelpState) (header : Str) : HelpState :=
  if header = "Generic Options:".data then .GENERIC_OPTIONS
  else if header = "General options:".data then .GENERAL_LLVM
  else if header = "IR2Vec Options:".data then .GENERAL_LLVM
  else if header = "Passes:".data then .MLIR_PASSES
  else if header = "Pass Pipelines:".data then .MLIR_PIPELINES
  else if header = "Color Options:".data then .GENERIC_OPTIONS
  else s

/-- `HelpState.category` from the source. -/
def HelpState.category (s : HelpState) (opt_name : Str) : OptionCategory :=
  match s with
  | .GENERAL_LLVM =>
      if leadsWith "--mlir-".data opt_name then .MLIR_OPTION else .LLVM
  | .MLIR_PASSES => .MLIR_PASS
  | .MLIR_PIPELINES => .MLIR_PASS_PIPELINE
  | .GENERIC_OPTIONS => .GENERIC

/-- The `current` slot of the parser loop.  In the source it is either `None`
or (by object aliasing) the `PassOption` most recently appended to some
record's `sub_options`; the loop never assigns a top-level record to it.
Following the arena-index discipline, the alias is an index pair into the
accumulated record list. -/
inductive Ctx where
  | nil
  | sub (recIdx : Nat) (subIdx : Nat)
deriving DecidableEq, Repr

/-- The mutable state of the `parse_help` loop.  `curOpt` models the
`current_opt` variable as an index into `options` (it is always the index of
the most recently appended record when set). -/
structure PState where
  options : List OptionRecord
  cur : Ctx
  curOpt : Option Nat
  lastPassIndent : Option Nat
  hstate : HelpState
deriving DecidableEq, Repr

/-- Initial parser state. -/
def initState : PState := ⟨[], .nil, none, none, .GENERAL_LLVM⟩

/-- Replace the element at index `i` by its image under `f` (identity when
out of range); the arena-mutation primitive for the parser state. -/
def updateAt : List α → Nat → (α → α) → List α
  | [], _, _ => []
  | a :: rest, 0, f => f a :: rest
  | a :: rest, n + 1, f => a :: updateAt rest n f

/-- Append a choice to sub-option `si` of record `ri`
(`current.choices.append(...)` when `current` aliases that sub-option). -/
def appendChoice (opts : List OptionRecord) (ri si : Nat) (ch : Choice) :
    List OptionRecord :=
  updateAt opts ri (fun r =>
    { r with sub_options :=
        updateAt r.sub_options si (fun p => { p with choices := p.choices ++ [ch] }) })

/-- Append a sub-option to record `ri` (`current_opt.sub_options.append(...)`). -/
def appendSub (opts : List OptionRecord) (ri : Nat) (p : PassOption) :
    List OptionRecord :=
  updateAt opts ri (fun r => { r with sub_options := r.sub_options ++ [p] })

/-- Number of sub-options of record `ri`. -/
def subCountAt (opts : List OptionRecord) (ri : Nat) : Nat :=
  match opts.get? ri with
  | some r => r.sub_options.length
  | none => 0

/-- The source's `indent <= last_pass_indent - 4` guard (over Python ints, so
the subtraction is not truncated). -/
def indentDrops (lastInd : Option Nat) (indent : Nat) : Bool :=
  match lastInd with
  | some lp => (indent : Int) ≤ (lp : Int) - 4
  | none => false

/-- The source's `indent == last_pass_indent + 2` test (with the
`last_pass_indent is not None` guard). -/
def isPassIndent (lastInd : Option Nat) (indent : Nat) : Bool :=
  match lastInd with
  | some lp => indent == lp + 2
  | none => false

/-- Handling of a `=value - description` choice line: append to the choices
of the currently aliased sub-option, if any and if the value is non-empty. -/
def handleChoice (s : PState) (stripped : Str) : PState :=
  match s.cur with
  | .nil => s
  | .sub ri si =>
      let pr := pyPartition "- ".data stripped
      let value := sanitize (pyLStripChar '=' pr.1)
      let desc := sanitize pr.2
      if value = [] then s
      else { s with options := appendChoice s.options ri si ⟨value, desc⟩ }

/-- Create a new top-level option record (the tail of the dash-line branch).
Note the source does not assign the new record to `current`, so `cur` is
left unchanged. -/
def newTopLevel (s : PState) (d : Decoded) (description : Str) (indent : Nat) :
    PState :=
  { s with
    options := s.options ++
      [⟨d.name, s.hstate.category d.name, d.style, description, d.value_hint, [], []⟩],
    curOpt := some s.options.length,
    lastPassIndent := some indent }

/-- Handling of a line that starts with `-`: split on `" - "`, decode the
option part, and either record a sub-option of the open record or start a
new top-level record. -/
def handleOptLine (s : PState) (stripped : Str) (indent : Nat) : PState :=
  match splitFirst " - ".data stripped with
  | none => { s with cur := .nil, curOpt := none }
  | some (before_desc, after_desc) =>
      let option_part := pyStrip before_desc
      let description := sanitize after_desc
      if option_part = [] then s
      else
        let d := decode_option option_part
        if d.name = [] then s
        else
          match s.curOpt with
          | none => newTopLevel s d description indent
          | some ci =>
              if isPassIndent s.lastPassIndent indent then
                -- `stripped.startswith("-")` holds on every path into this
                -- function, so it is not re-tested here.
                let pName := pyLStripChar '-' d.name
                if pName = [] then s
                else
                  { s with
                    options := appendSub s.options ci
                      ⟨pName, d.style, description, d.value_hint, []⟩,
                    cur := .sub ci (subCountAt s.options ci) }
              else newTopLevel s d description indent

/-- The pipeline-section revert at the top of the loop body: while in the
pipelines section, an indentation drop of at least 4 reverts to the general
state. -/
def pipelineRevert (s : PState) (indent : Nat) : PState :=
  if indentDrops s.lastPassIndent indent && (s.hstate == HelpState.MLIR_PIPELINES)
  then { s with hstate := .GENERAL_LLVM } else s

/-- One iteration of the `parse_help` loop on a raw line. -/
def processLine (s : PState) (raw : Str) : PState :=
  let stripped := pyLStrip raw
  if stripped = [] then { s with lastPassIndent := none }
  else
    let indent := raw.length - stripped.length
    let s1 := pipelineRevert s indent
    if stripped.head? = some '=' then handleChoice s1 stripped
    else if stripped.head? ≠ some '-' then
      { s1 with
        hstate := s1.hstate.new_state_on_header stripped,
        cur := .nil, curOpt := none, lastPassIndent := none }
    else handleOptLine s1 stripped indent

/-- Run the parser loop over a list of raw lines. -/
def parseLines (ls : List Str) : PState := ls.foldl processLine initState

/-- `parse_help` from the source. -/
def parse_help (text : Str) : List OptionRecord :=
  (parseLines (pySplitlines text)).options

/-! ## Renderers -/

/-- `esc` from the source: put `d` backslashes before every colon
(`s.replace(':', '\\' * d + ':')`). -/
def esc (d : Nat) (s : Str) : Str :=
  (s.map (fun c => if c = ':' then List.replicate d '\\' ++ [':'] else [c])).flatten

/-- `s.replace(' ', '\\ ')` from `option_to_values`. -/
def escSpace (s : Str) : Str :=
  (s.map (fun c => if c = ' ' then ['\\', ' '] else [c])).flatten

/-- `s.replace(']', '\\]')` from `to_zsh_optspec`. -/
def escRBracket (s : Str) : Str :=
  (s.map (fun c => if c = ']' then ['\\', ']'] else [c])).flatten

/-- The fields `option_to_values` reads from its duck-typed argument
(an `OptionRecord` or a `PassOption`). -/
structure OptLike where
  name : Str
  value_hint : Str
  choices : List Choice
deriving DecidableEq, Repr

/-- View of a top-level record for `option_to_values`. -/
def OptionRecord.toOptLike (o : OptionRecord) : OptLike :=
  ⟨o.name, o.value_hint, o.choices⟩

/-- View of a pass option for `option_to_values`. -/
def PassOption.toOptLike (o : PassOption) : OptLike :=
  ⟨o.name, o.value_hint, o.choices⟩

/-- Python `' '.join(entries)`. -/
def joinSpace (ls : List Str) : Str := (ls.intersperse " ".data).flatten

/-- `option_to_values` from the source: normalized hint and the rendered
value expression. -/
def option_to_values (opt : OptLike) : Str × Str :=
  let hint0 := pyRStripChar '>' (pyLStripChar '<' opt.value_hint)
  let hint := if hint0 = "value".data then opt.name ++ " value".data else hint0
  if opt.choices.length > 0 then
    if ¬ (opt.choices.any (fun c => !(pyStrip c.description).isEmpty)) then
      (hint, "(".data ++ joinSpace (opt.choices.map Choice.value) ++ ")".data)
    else
      let body := joinSpace (opt.choices.map (fun c =>
        c.value ++ ':' ::
          (let e := esc 2 (escSpace (pyStrip c.description))
           if e = [] then "no description".data else e)))
      (hint, "((".data ++ body ++ "))".data)
  else if hint = "number".data ∨ hint = "int".data ∨ hint = "long".data then
    (hint, "_numbers".data)
  else if hint = "uint".data ∨ hint = "ulong".data then
    (hint, "_numbers -l 0".data)
  else (hint, [])

/-- The `*` repetition marker of `to_zsh_optspec`. -/
def repetition_star (opt : OptionRecord) : Str :=
  if opt.category = .MLIR_PASS ∨ opt.category = .MLIR_PASS_PIPELINE
  then "*".data else []

/-- `to_zsh_optspec` from the source. -/
def to_zsh_optspec (opt : OptionRecord) : Str :=
  let hv := option_to_values opt.toOptLike
  let sep : Str :=
    if opt.choices.length > 0 ∨ opt.sub_options.length > 0 then "=-".data else []
  let descr := escRBracket (esc 1 opt.description)
  repetition_star opt ++ opt.name ++ sep ++
    '[' :: descr ++ ']' :: ':' :: esc 1 hv.1 ++ ':' :: hv.2

/-- `to_zsh_value` from the source. -/
def to_zsh_value (opt : PassOption) : Str :=
  if opt.style = "flag".data then
    opt.name ++ '[' :: esc 1 opt.description ++ [']']
  else
    let hv := option_to_values opt.toOptLike
    opt.name ++ '[' :: esc 1 opt.description ++ ']' :: ':' :: esc 1 hv.1 ++ ':' :: hv.2

/-! ## Payload builder -/

/-- `to_zsh_array`: join the entries with the NUL delimiter. -/
def to_zsh_array (entries : List Str) : Str :=
  (entries.intersperse ['\x00']).flatten

/-- Insert into an association-list model of a Python dict: overwrite the
value in place when the key exists, append otherwise. -/
def dictInsert (d : List (Str × Str)) (k v : Str) : List (Str × Str) :=
  if d.any (fun p => decide (p.1 = k)) then
    d.map (fun p => if p.1 = k then (k, v) else p)
  else d ++ [(k, v)]

/-- Lookup in the association-list dict model. -/
def lookupD (d : List (Str × Str)) (k : Str) : Option Str :=
  (d.find? (fun p => decide (p.1 = k))).map Prod.snd

/-- `ZshPayload` from the source. -/
structure ZshPayload where
  option_specs : Str
  pass_options : List (Str × Str)
deriving DecidableEq, Repr

/-- The non-foreign records kept by the payload builder. -/
def keptRecords (help_text : Str) : List OptionRecord :=
  (parse_help help_text).filter (fun o => decide (o.category ≠ .LLVM))

/-- `build_payload` from the source. -/
def build_payload (help_text : Str) : ZshPayload :=
  { option_specs := to_zsh_array ((keptRecords help_text).map to_zsh_optspec),
    pass_options :=
      (keptRecords help_text).foldl
        (fun d o => dictInsert d o.name (to_zsh_array (o.sub_options.map to_zsh_value)))
        [] }

/-! ## Cache decision logic of `get_data`

`get_data` with caching enabled loads the cache, compares the binary's
modification time and the help text's checksum against the stored entry, and
either returns the stored payload or rebuilds it.  The model records which
external effects happen (`ranHelp`, `builtPayload`) alongside the returned
payload. -/

/-- One cache entry as decoded from the JSON cache file (absent keys and JSON
`null` both decode to `none`). -/
structure CacheEntry where
  mtime : Option Int
  checksum : Option Str
  payload : Option ZshPayload
deriving DecidableEq, Repr

/-- Inputs of one `get_data` call (with `use_cache=True`): the queried binary
path, the decoded cache contents, the binary's current modification time
(`none` when `os.path.getmtime` raises), and the text `run_help` would
return. -/
structure GetDataEnv where
  binary : Str
  cache : List (Str × CacheEntry)
  mtime : Option Int
  helpText : Str
deriving DecidableEq, Repr

/-- Observable outcome of a `get_data` call: the returned payload, whether
the external help process was run, and whether `build_payload` was invoked. -/
structure GetDataOut where
  payload : ZshPayload
  ranHelp : Bool
  builtPayload : Bool
deriving DecidableEq, Repr

/-- Python `cache.get(k)` on the decoded cache dict. -/
def lookupCache (cache : List (Str × CacheEntry)) (k : Str) : Option CacheEntry :=
  (cache.find? (fun p => decide (p.1 = k))).map Prod.snd

/-- The source's `cached_checksum != checksum` test.  In the source,
`checksum` is the freshly constructed `hashlib.sha256(...)` hash object —
never a hex digest — while `cached_checksum` is a JSON-decoded value (a
string or `None`).  `hashlib` hash objects define no `__eq__`, so Python
falls back to identity comparison and `!=` against any previously stored
value is always `True`, whatever the cached digest says. -/
def freshHashNeCached (_cached : Option Str) : Bool := true

/-- `get_data` from the source, `use_cache=True` path.  The cache lookup uses
the literal key `"binary"` exactly as the source does
(`bincache := cache.get("binary")`), even though entries are stored under
`cache[binary]`. -/
def get_data (env : GetDataEnv) : GetDataOut :=
  match lookupCache env.cache "binary".data with
  | some bc =>
      match bc.payload with
      | some p =>
          if bc.mtime = env.mtime then ⟨p, false, false⟩
          else if freshHashNeCached bc.checksum then
            ⟨build_payload env.helpText, true, true⟩
          else ⟨p, true, false⟩
      | none => ⟨build_payload env.helpText, true, true⟩
  | none => ⟨build_payload env.helpText, true, true⟩

/-! ## Notions used by the claim statements -/

/-- Total number of sub-options recorded across all parsed records. -/
def totalSubs (s : PState) : Nat :=
  (s.options.map (fun r => r.sub_options.length)).sum

/-- Well-formedness of a parser state: the open-record index, when set,
points into `options`.  The parser maintains this (the index is always that
of the most recently appended record). -/
def wfState (s : PState) : Bool :=
  match s.curOpt with
  | some i => decide (i < s.options.length)
  | none => true

/-- Name invariant of the parsed records: top-level names are non-empty and
dash-initial, sub-option names are non-empty with leading dashes stripped. -/
def NamesOK (opts : List OptionRecord) : Prop :=
  ∀ r ∈ opts, (r.name ≠ [] ∧ r.name.head? = some '-') ∧
    ∀ p ∈ r.sub_options, p.name ≠ [] ∧ p.name.head? ≠ some '-'

/-- Choice invariant of the parsed records: every recorded choice has a
non-empty value. -/
def ChoicesOK (opts : List OptionRecord) : Prop :=
  ∀ r ∈ opts, (∀ c ∈ r.choices, c.value ≠ []) ∧
    ∀ p ∈ r.sub_options, ∀ c ∈ p.choices, c.value ≠ []

/-- The rendered sub-option array of the last record named `k` in a record
list (the value a Python dict comprehension keeps for key `k`). -/
def lastSubSpec (k : Str) : List OptionRecord → Option Str
  | [] => none
  | o :: rest =>
      match lastSubSpec k rest with
      | some v => some v
      | none =>
          if o.name = k then some (to_zsh_array (o.sub_options.map to_zsh_value))
          else none

/-! ## Concrete inputs used by the claim theorems and witnesses -/

/-- The end-to-end example line of the spec. -/
def exLineC5 : Str := "  --my-flag=<type> - Does a thing".data

/-- The record the parser actually produces for `exLineC5` (the value hint
keeps its angle brackets). -/
def exRecC5 : OptionRecord :=
  ⟨"--my-flag".data, .LLVM, "attached".data, "Does a thing".data,
   "<type>".data, [], []⟩

/-- The option of the repository test
`test_escape_value_description_that_has_paren`: sub-option `complex-range`
with a parenthesized choice description. -/
def parenOpt : OptLike :=
  ⟨"complex-range".data, "<value>".data,
   [⟨"improved".data, "improved".data⟩,
    ⟨"basic".data, "basic (default)".data⟩,
    ⟨"none".data, "none".data⟩]⟩

/-- The sub-option of the repository test `test_value_list_descr_with_brackets`:
a flag-style pass option whose description contains literal brackets. -/
def bracketSub : PassOption :=
  ⟨"lhs-transpose-inner-blocks".data, "flag".data,
   "Transpose LHS inner block layout [mb][kb] -> [kb][mb]".data, [], []⟩

/-- Help text declaring `bracketSub` under a pass, as in the repository test
data. -/
def bracketHelp : Str :=
  ("Passes:\n  --linalg-block-pack-matmul - Pack matmul\n" ++
   "    --lhs-transpose-inner-blocks - Transpose LHS inner block layout [mb][kb] -> [kb][mb]\n").data

/-- A stored payload used by the cache counterexamples. -/
def storedPayload : ZshPayload := ⟨"CACHED".data, []⟩

/-- Cache environment for the modification-time claim: the cache holds an
entry for the queried binary path itself, with a matching modification
time. -/
def mtimeEnv : GetDataEnv :=
  ⟨"/usr/bin/tilefirst-opt".data,
   [("/usr/bin/tilefirst-opt".data,
     ⟨some 100, some "c0".data, some storedPayload⟩)],
   some 100, "HELP".data⟩

/-- Cache environment for the checksum claim, parametrized by the cached
checksum digest: the binary is literally named `binary` (so the source's
literal-key lookup does find the entry), its modification time changed, and
the help text is `HELP` (whose sha256 hex digest is
`37a6760fa43caf5b1ea02f22251b1456c39e060a4918ba3e963dbde336f16148`). -/
def checksumEnv (c0 : Str) : GetDataEnv :=
  ⟨"binary".data,
   [("binary".data, ⟨some 100, some c0, some storedPayload⟩)],
   some 200, "HELP".data⟩

/-- Help text with two same-named passes, the first carrying a sub-option:
exercises the dict-overwrite behavior of `pass_options`. -/
def dupHelp : Str :=
  "Passes:\n  --p - first\n    --sub - s\n  --p - second\n".data

/-- Help text whose third line meets every sub-option condition of the claim
but decodes to a name made only of dashes. -/
def dashOnlyHelp : Str :=
  "Passes:\n  --my-pass - a pass\n    -- - sub\n".data

/-- A small pass help text with one sub-option (witness input). -/
def passHelp : Str := "Passes:\n  --p - d\n    --s - e\n".data

/-- The record parsed from `passHelp`. -/
def passRec : OptionRecord :=
  ⟨"--p".data, .MLIR_PASS, "flag".data, "d".data, [], [],
   [⟨"s".data, "flag".data, "e".data, [], []⟩]⟩

/-- A pass help text whose sub-option has one enumerated choice
(witness input). -/
def choiceHelp : Str :=
  "Passes:\n  --p - d\n    --s - e\n      =v - w\n".data

/-- The record parsed from `choiceHelp`. -/
def choiceRec : OptionRecord :=
  ⟨"--p".data, .MLIR_PASS, "flag".data, "d".data, [], [],
   [⟨"s".data, "flag".data, "e".data, [], [⟨"v".data, "w".data⟩]⟩]⟩

/-- A parser state with one open pass record at indent 2 (witness input for
the sub-option rule). -/
def subRuleState : PState :=
  ⟨[passRec], .nil, some 0, some 2, .MLIR_PASSES⟩

/-- A raw sub-option line at indent 4 (witness input for the sub-option
rule). -/
def subRuleLine : Str := "    --s2 - f".data

/-! ## String lemmas -/

theorem leadsWith_append (sep : Str) :
    ∀ l : Str, leadsWith sep l = true → sep ++ l.drop sep.length = l := by
  induction sep with
  | nil => intro l _; simp
  | cons p ps ih =>
    intro l h
    cases l with
    | nil => simp [leadsWith] at h
    | cons c cs =>
      simp only [leadsWith, Bool.and_eq_true, beq_iff_eq] at h
      obtain ⟨rfl, h2⟩ := h
      simpa using ih cs h2

theorem leadsWith_nil (sep : Str) (h : leadsWith sep [] = true) : sep = [] := by
  cases sep with
  | nil => rfl
  | cons p ps => simp [leadsWith] at h

theorem splitFirst_eq (sep b a : Str) :
    ∀ l, splitFirst sep l = some (b, a) → b ++ sep ++ a = l := by
  intro l
  induction l generalizing b a with
  | nil =>
    intro h
    simp only [splitFirst] at h
    split at h
    · next hl =>
      simp only [Option.some.injEq, Prod.mk.injEq] at h
      obtain ⟨rfl, rfl⟩ := h
      simp [leadsWith_nil sep hl]
    · exact absurd h (by simp)
  | cons c rest ih =>
    intro h
    simp only [splitFirst] at h
    split at h
    · next hl =>
      simp only [Option.some.injEq, Prod.mk.injEq] at h
      obtain ⟨rfl, rfl⟩ := h
      simpa using leadsWith_append sep (c :: rest) hl
    · next hl =>
      rw [Option.map_eq_some'] at h
      obtain ⟨⟨b', a'⟩, hsp, hba⟩ := h
      simp only [Prod.mk.injEq] at hba
      obtain ⟨rfl, rfl⟩ := hba
      simpa using ih b' a' hsp

theorem splitFirst_head {s0 : Char} {sepRest l b a : Str} {c : Char}
    (h : splitFirst (s0 :: sepRest) l = some (b, a))
    (hc : l.head? = some c) (hne : c ≠ s0) :
    b ≠ [] ∧ b.head? = some c := by
  have he := splitFirst_eq _ _ _ _ h
  cases b with
  | nil =>
    exfalso
    apply hne
    rw [← he] at hc
    simp only [List.nil_append, List.cons_append, List.head?_cons,
      Option.some.injEq] at hc
    exact hc.symm
  | cons x xs =>
    have hx : x = c := by
      rw [← he] at hc
      simpa using hc
    subst hx
    exact ⟨by simp, rfl⟩

theorem dropEnd_head {p : Char → Bool} {l : Str} {c : Char}
    (hc : l.head? = some c) (hp : p c = false) :
    dropEnd p l ≠ [] ∧ (dropEnd p l).head? = some c := by
  cases l with
  | nil => simp at hc
  | cons x xs =>
    obtain rfl : x = c := by simpa using hc
    simp [dropEnd, hp]

theorem pyLStrip_of_head {l : Str} {c : Char}
    (hc : l.head? = some c) (hw : isWs c = false) : pyLStrip l = l := by
  cases l with
  | nil => rfl
  | cons x xs =>
    obtain rfl : x = c := by simpa using hc
    simp [pyLStrip, List.dropWhile_cons, hw]

theorem pyStrip_head {l : Str} {c : Char}
    (hc : l.head? = some c) (hw : isWs c = false) :
    pyStrip l ≠ [] ∧ (pyStrip l).head? = some c := by
  unfold pyStrip pyRStrip
  rw [pyLStrip_of_head hc hw]
  exact dropEnd_head hc hw

theorem dropWhile_head_false {p : Char → Bool} :
    ∀ (l : Str) {c t}, l.dropWhile p = c :: t → p c = false := by
  intro l
  induction l with
  | nil => intro c t h; simp at h
  | cons x xs ih =>
    intro c t h
    rw [List.dropWhile_cons] at h
    split at h
    · exact ih h
    · next hx =>
      obtain ⟨rfl, -⟩ := List.cons.inj h
      simpa using hx

theorem pyLStripChar_head_ne {c : Char} {l : Str}
    (h : pyLStripChar c l ≠ []) : (pyLStripChar c l).head? ≠ some c := by
  unfold pyLStripChar at *
  cases hd : l.dropWhile (· == c) with
  | nil => exact absurd hd h
  | cons x xs =>
    have hx := dropWhile_head_false l hd
    simp only [List.head?_cons, ne_eq, Option.some.injEq]
    intro hxc
    rw [hxc] at hx
    simp at hx

theorem firstTok_head {t : Str} :
    firstTok ('-' :: t) ≠ [] ∧ (firstTok ('-' :: t)).head? = some '-' := by
  constructor <;> simp [firstTok, List.takeWhile_cons, isWs]

/-- The decoded name, as a function of the first token (the trailing
`rstrip`s applied by `decode_option` on each branch). -/
theorem decode_name_formula (op : Str) (hop : pyLStrip op = op) (hne : op ≠ []) :
    (decode_option op).name =
      (match splitFirst ['='] (firstTok op) with
       | some (pre, _) => pyRStripChar ',' (pyRStripChar '[' pre)
       | none => pyRStripChar ',' (firstTok op)) := by
  simp only [decode_option, hop, if_neg hne]
  cases hsp : splitFirst ['='] (firstTok op) with
  | none =>
    simp only [hsp]
    split <;> rfl
  | some pr =>
    obtain ⟨pre, tl⟩ := pr
    simp only [hsp]

/-- The name decoded from an option part whose first character is a dash is
non-empty and begins with that dash. -/
theorem decode_option_name_dash {l : Str} (h : l.head? = some '-') :
    (decode_option l).name ≠ [] ∧ (decode_option l).name.head? = some '-' := by
  cases l with
  | nil => simp at h
  | cons x t =>
    obtain rfl : x = '-' := by simpa using h
    have hop : pyLStrip ('-' :: t) = '-' :: t :=
      pyLStrip_of_head (by rfl) (by decide)
    rw [decode_name_formula ('-' :: t) hop (by simp)]
    have htok := @firstTok_head t
    cases hsp : splitFirst ['='] (firstTok ('-' :: t)) with
    | none =>
      exact dropEnd_head htok.2 (by decide)
    | some pr =>
      obtain ⟨pre, tl⟩ := pr
      have hpre : pre ≠ [] ∧ pre.head? = some '-' :=
        splitFirst_head hsp htok.2 (by decide)
      have h1 := dropEnd_head (p := (· == '[')) hpre.2 (by decide)
      exact dropEnd_head (p := (· == ',')) h1.2 (by decide)

/-! ## Arena update lemmas -/

theorem length_updateAt {α} : ∀ (l : List α) (i : Nat) (f : α → α),
    (updateAt l i f).length = l.length := by
  intro l
  induction l with
  | nil => intro i f; rfl
  | cons a rest ih =>
    intro i f
    cases i with
    | zero => rfl
    | succ n => simp [updateAt, ih]

theorem mem_updateAt {α} : ∀ (l : List α) (i : Nat) (f : α → α) (x : α),
    x ∈ updateAt l i f → x ∈ l ∨ ∃ y, y ∈ l ∧ x = f y := by
  intro l
  induction l with
  | nil => intro i f x hx; simp [updateAt] at hx
  | cons a rest ih =>
    intro i f x hx
    cases i with
    | zero =>
      rcases List.mem_cons.mp hx with hx | hx
      · exact Or.inr ⟨a, List.mem_cons_self a rest, hx⟩
      · exact Or.inl (List.mem_cons_of_mem a hx)
    | succ n =>
      rcases List.mem_cons.mp hx with hx | hx
      · exact Or.inl (hx ▸ List.mem_cons_self a rest)
      · rcases ih n f x hx with h | ⟨y, hy, hxy⟩
        · exact Or.inl (List.mem_cons_of_mem a h)
        · exact Or.inr ⟨y, List.mem_cons_of_mem a hy, hxy⟩

theorem map_updateAt {α β} (g : α → β) (f : α → α)
    (hf : ∀ x, g (f x) = g x) : ∀ (l : List α) (i : Nat),
    (updateAt l i f).map g = l.map g := by
  intro l
  induction l with
  | nil => intro i; rfl
  | cons a rest ih =>
    intro i
    cases i with
    | zero => simp [updateAt, hf]
    | succ n => simp [updateAt, ih]

theorem sum_map_updateAt_succ {α} (g : α → Nat) (f : α → α)
    (hf : ∀ x, g (f x) = g x + 1) : ∀ (l : List α) (i : Nat), i < l.length →
    ((updateAt l i f).map g).sum = (l.map g).sum + 1 := by
  intro l
  induction l with
  | nil => intro i hi; simp at hi
  | cons a rest ih =>
    intro i hi
    cases i with
    | zero => simp [updateAt, hf]; omega
    | succ n =>
      have hn : n < rest.length := by simpa using hi
      simp [updateAt, ih n hn]; omega

/-! ## Effects of the parser-step components -/

theorem totalSubs_appendChoice (opts : List OptionRecord) (ri si : Nat)
    (ch : Choice) :
    ((appendChoice opts ri si ch).map (fun r => r.sub_options.length)).sum
      = (opts.map (fun r => r.sub_options.length)).sum := by
  unfold appendChoice
  rw [map_updateAt]
  intro x
  simp [length_updateAt]

theorem totalSubs_appendSub (opts : List OptionRecord) (ri : Nat)
    (p : PassOption) (h : ri < opts.length) :
    ((appendSub opts ri p).map (fun r => r.sub_options.length)).sum
      = (opts.map (fun r => r.sub_options.length)).sum + 1 := by
  unfold appendSub
  apply sum_map_updateAt_succ
  · intro x; simp
  · exact h

theorem pipelineRevert_fields (s : PState) (indent : Nat) :
    (pipelineRevert s indent).options = s.options ∧
    (pipelineRevert s indent).cur = s.cur ∧
    (pipelineRevert s indent).curOpt = s.curOpt ∧
    (pipelineRevert s indent).lastPassIndent = s.lastPassIndent := by
  unfold pipelineRevert
  split <;> exact ⟨rfl, rfl, rfl, rfl⟩

theorem handleChoice_fields (s : PState) (stripped : Str) :
    (handleChoice s stripped).cur = s.cur ∧
    (handleChoice s stripped).curOpt = s.curOpt ∧
    (handleChoice s stripped).lastPassIndent = s.lastPassIndent := by
  obtain ⟨opts, cur, co, lpi, hs⟩ := s
  cases cur with
  | nil => exact ⟨rfl, rfl, rfl⟩
  | sub ri si =>
    dsimp only [handleChoice]
    split <;> exact ⟨rfl, rfl, rfl⟩

theorem handleChoice_options (s : PState) (stripped : Str) :
    (handleChoice s stripped).options = s.options ∨
    ∃ ri si ch, ch.value ≠ [] ∧
      (handleChoice s stripped).options = appendChoice s.options ri si ch := by
  obtain ⟨opts, cur, co, lpi, hs⟩ := s
  cases cur with
  | nil => exact Or.inl rfl
  | sub ri si =>
    dsimp only [handleChoice]
    split
    · exact Or.inl rfl
    · next hv => exact Or.inr ⟨ri, si, _, hv, rfl⟩

theorem newTopLevel_subs (s : PState) (d : Decoded) (descr : Str)
    (indent : Nat) :
    ((newTopLevel s d descr indent).options.map
        (fun r => r.sub_options.length)).sum
      = (s.options.map (fun r => r.sub_options.length)).sum := by
  simp [newTopLevel]

theorem handleOptLine_shape (s : PState) (stripped : Str) (indent : Nat) :
    handleOptLine s stripped indent = { s with cur := .nil, curOpt := none }
  ∨ handleOptLine s stripped indent = s
  ∨ (∃ b a, splitFirst " - ".data stripped = some (b, a) ∧
      pyStrip b ≠ [] ∧ (decode_option (pyStrip b)).name ≠ [] ∧
      handleOptLine s stripped indent =
        newTopLevel s (decode_option (pyStrip b)) (sanitize a) indent)
  ∨ (∃ ci b a, s.curOpt = some ci ∧
      splitFirst " - ".data stripped = some (b, a) ∧
      isPassIndent s.lastPassIndent indent = true ∧
      (decode_option (pyStrip b)).name ≠ [] ∧
      pyLStripChar '-' (decode_option (pyStrip b)).name ≠ [] ∧
      handleOptLine s stripped indent =
        { s with
          options := appendSub s.options ci
            ⟨pyLStripChar '-' (decode_option (pyStrip b)).name,
             (decode_option (pyStrip b)).style, sanitize a,
             (decode_option (pyStrip b)).value_hint, []⟩,
          cur := .sub ci (subCountAt s.options ci) }) := by
  cases hsp : splitFirst " - ".data stripped with
  | none =>
    left
    simp only [handleOptLine, hsp]
  | some pr =>
    obtain ⟨b, a⟩ := pr
    by_cases hop : pyStrip b = []
    · right; left
      simp only [handleOptLine, hsp, if_pos hop]
    · by_cases hname : (decode_option (pyStrip b)).name = []
      · right; left
        simp only [handleOptLine, hsp, if_neg hop, if_pos hname]
      · cases hc : s.curOpt with
        | none =>
          right; right; left
          refine ⟨b, a, rfl, hop, hname, ?_⟩
          simp only [handleOptLine, hsp, if_neg hop, if_neg hname, hc]
        | some ci =>
          by_cases hpi : isPassIndent s.lastPassIndent indent = true
          · by_cases hpn : pyLStripChar '-' (decode_option (pyStrip b)).name = []
            · right; left
              simp only [handleOptLine, hsp, if_neg hop, if_neg hname, hc]
              rw [if_pos hpi, if_pos hpn]
            · right; right; right
              refine ⟨ci, b, a, rfl, rfl, hpi, hname, hpn, ?_⟩
              simp only [handleOptLine, hsp, if_neg hop, if_neg hname, hc]
              rw [if_pos hpi, if_neg hpn]
          · right; right; left
            refine ⟨b, a, rfl, hop, hname, ?_⟩
            simp only [handleOptLine, hsp, if_neg hop, if_neg hname, hc]
            rw [if_neg hpi]

theorem totalSubs_eq_of_options {s' s : PState} (h : s'.options = s.options) :
    totalSubs s' = totalSubs s := by
  unfold totalSubs
  rw [h]

theorem totalSubs_handleChoice (s : PState) (stripped : Str) :
    totalSubs (handleChoice s stripped) = totalSubs s := by
  rcases handleChoice_options s stripped with h | ⟨ri, si, ch, _, h⟩
  · exact totalSubs_eq_of_options h
  · unfold totalSubs
    rw [h]
    exact totalSubs_appendChoice s.options ri si ch

theorem totalSubs_newTopLevel (s : PState) (d : Decoded) (descr : Str)
    (indent : Nat) :
    totalSubs (newTopLevel s d descr indent) = totalSubs s :=
  newTopLevel_subs s d descr indent

theorem wf_index {s : PState} {ci : Nat} (hwf : wfState s = true)
    (hc : s.curOpt = some ci) : ci < s.options.length := by
  unfold wfState at hwf
  rw [hc] at hwf
  exact of_decide_eq_true hwf

theorem isPassIndent_some {lp indent : Nat} :
    isPassIndent (some lp) indent = true ↔ indent = lp + 2 := by
  simp [isPassIndent]

/-- C6 (amended): during parsing, a line is recorded as a sub-option of the
currently open top-level record if and only if all hold: a top-level option
is open, a last-top-level indent is recorded, the line's indentation equals
that indent plus 2, the line starts with a dash, it contains the ` - `
separator, and — the condition the claim omits — the decoded option name
stripped of its leading dashes is non-empty.  When recorded, the sub-option
becomes the currently open context for subsequent `=` choice lines and the
recorded last-top-level indent is left unchanged. -/
theorem sub_option_rule_amended (s : PState) (raw : Str)
    (hwf : wfState s = true) :
    (totalSubs (processLine s raw) = totalSubs s + 1 ↔
      ∃ ci lp b a, s.curOpt = some ci ∧ s.lastPassIndent = some lp ∧
        raw.length - (pyLStrip raw).length = lp + 2 ∧
        (pyLStrip raw).head? = some '-' ∧
        splitFirst " - ".data (pyLStrip raw) = some (b, a) ∧
        pyLStripChar '-' (decode_option (pyStrip b)).name ≠ []) ∧
    (totalSubs (processLine s raw) = totalSubs s + 1 →
      (∃ ci, s.curOpt = some ci ∧
        (processLine s raw).cur = Ctx.sub ci (subCountAt s.options ci)) ∧
      (processLine s raw).lastPassIndent = s.lastPassIndent) := by
  obtain ⟨ho1, ho2, ho3, ho4⟩ :=
    pipelineRevert_fields s (raw.length - (pyLStrip raw).length)
  by_cases hblank : pyLStrip raw = []
  · have hts : totalSubs (processLine s raw) = totalSubs s := by
      simp only [processLine, if_pos hblank]
      rfl
    refine ⟨⟨fun h => by rw [hts] at h; omega, ?_⟩,
            fun h => by rw [hts] at h; omega⟩
    rintro ⟨ci, lp, b, a, -, -, -, hhead, -, -⟩
    rw [hblank] at hhead
    simp at hhead
  · by_cases heq : (pyLStrip raw).head? = some '='
    · have hts : totalSubs (processLine s raw) = totalSubs s := by
        simp only [processLine, if_neg hblank, if_pos heq]
        rw [totalSubs_handleChoice]
        exact totalSubs_eq_of_options ho1
      refine ⟨⟨fun h => by rw [hts] at h; omega, ?_⟩,
              fun h => by rw [hts] at h; omega⟩
      rintro ⟨ci, lp, b, a, -, -, -, hhead, -, -⟩
      rw [heq] at hhead
      simp at hhead
    · by_cases hh : (pyLStrip raw).head? = some '-'
      · -- dash line: the genuine option-line branch
        have hne2 : ¬((pyLStrip raw).head? ≠ some '-') := by simp [hh]
        have he : processLine s raw =
            handleOptLine (pipelineRevert s (raw.length - (pyLStrip raw).length))
              (pyLStrip raw) (raw.length - (pyLStrip raw).length) := by
          simp only [processLine, if_neg hblank, if_neg heq, if_neg hne2]
        generalize hs1 : pipelineRevert s (raw.length - (pyLStrip raw).length) = s1
          at he ho1 ho2 ho3 ho4
        have hback : (∃ ci lp b a, s.curOpt = some ci ∧
            s.lastPassIndent = some lp ∧
            raw.length - (pyLStrip raw).length = lp + 2 ∧
            (pyLStrip raw).head? = some '-' ∧
            splitFirst " - ".data (pyLStrip raw) = some (b, a) ∧
            pyLStripChar '-' (decode_option (pyStrip b)).name ≠ []) →
            totalSubs (processLine s raw) = totalSubs s + 1 ∧
            (∃ ci, s.curOpt = some ci ∧
              (processLine s raw).cur = Ctx.sub ci (subCountAt s.options ci)) ∧
            (processLine s raw).lastPassIndent = s.lastPassIndent := by
          rintro ⟨ci, lp, b, a, hc, hlp, hind, -, hsp, hpn⟩
          have hbh := splitFirst_head hsp hh (by decide)
          have hopb := pyStrip_head hbh.2 (by decide)
          have hnm := decode_option_name_dash hopb.2
          have hc1 : s1.curOpt = some ci := by rw [ho3, hc]
          have hlp1 : s1.lastPassIndent = some lp := by rw [ho4, hlp]
          have hpi : isPassIndent s1.lastPassIndent
              (raw.length - (pyLStrip raw).length) = true := by
            rw [hlp1]
            exact isPassIndent_some.mpr hind
          have hcomp : handleOptLine s1 (pyLStrip raw)
              (raw.length - (pyLStrip raw).length) =
              { s1 with
                options := appendSub s1.options ci
                  ⟨pyLStripChar '-' (decode_option (pyStrip b)).name,
                   (decode_option (pyStrip b)).style, sanitize a,
                   (decode_option (pyStrip b)).value_hint, []⟩,
                cur := .sub ci (subCountAt s1.options ci) } := by
            simp only [handleOptLine, hsp, if_neg hopb.1, if_neg hnm.1, hc1]
            rw [if_pos hpi, if_neg hpn]
          have hci : ci < s1.options.length := by
            rw [ho1]
            exact wf_index hwf hc
          have hts : totalSubs (processLine s raw) = totalSubs s + 1 := by
            rw [he, hcomp]
            show ((appendSub s1.options ci
                ⟨pyLStripChar '-' (decode_option (pyStrip b)).name,
                 (decode_option (pyStrip b)).style, sanitize a,
                 (decode_option (pyStrip b)).value_hint, []⟩).map
                (fun r => r.sub_options.length)).sum = totalSubs s + 1
            rw [totalSubs_appendSub _ _ _ hci, ho1]
            rfl
          refine ⟨hts, ⟨ci, hc, ?_⟩, ?_⟩
          · rw [he, hcomp]
            show Ctx.sub ci (subCountAt s1.options ci) =
              Ctx.sub ci (subCountAt s.options ci)
            rw [ho1]
          · rw [he, hcomp]
            show s1.lastPassIndent = s.lastPassIndent
            exact ho4
        have hfwd : totalSubs (processLine s raw) = totalSubs s + 1 →
            (∃ ci lp b a, s.curOpt = some ci ∧ s.lastPassIndent = some lp ∧
              raw.length - (pyLStrip raw).length = lp + 2 ∧
              (pyLStrip raw).head? = some '-' ∧
              splitFirst " - ".data (pyLStrip raw) = some (b, a) ∧
              pyLStripChar '-' (decode_option (pyStrip b)).name ≠ []) ∧
            (∃ ci, s.curOpt = some ci ∧
              (processLine s raw).cur = Ctx.sub ci (subCountAt s.options ci)) ∧
            (processLine s raw).lastPassIndent = s.lastPassIndent := by
          intro hcount
          rcases handleOptLine_shape s1 (pyLStrip raw)
              (raw.length - (pyLStrip raw).length) with
            h1 | h2 | ⟨b, a, hsp, hop, hnm, h3⟩ |
            ⟨ci, b, a, hc1, hsp, hpi, hnm, hpn, h4⟩
          · rw [he, h1] at hcount
            simp only [totalSubs] at hcount
            rw [ho1] at hcount
            omega
          · rw [he, h2, totalSubs_eq_of_options ho1] at hcount
            omega
          · rw [he, h3, totalSubs_newTopLevel,
              totalSubs_eq_of_options ho1] at hcount
            omega
          · have hc : s.curOpt = some ci := by rw [← ho3]; exact hc1
            rw [ho4] at hpi
            obtain ⟨lp, hlp⟩ : ∃ lp, s.lastPassIndent = some lp := by
              cases hsl : s.lastPassIndent with
              | none => rw [hsl] at hpi; simp [isPassIndent] at hpi
              | some lp => exact ⟨lp, rfl⟩
            have hind : raw.length - (pyLStrip raw).length = lp + 2 := by
              rw [hlp] at hpi
              exact isPassIndent_some.mp hpi
            refine ⟨⟨ci, lp, b, a, hc, hlp, hind, hh, hsp, hpn⟩,
              ⟨ci, hc, ?_⟩, ?_⟩
            · rw [he, h4]
              show Ctx.sub ci (subCountAt s1.options ci) =
                Ctx.sub ci (subCountAt s.options ci)
              rw [ho1]
            · rw [he, h4]
              show s1.lastPassIndent = s.lastPassIndent
              exact ho4
        exact ⟨⟨fun h => (hfwd h).1, fun h => (hback h).1⟩, fun h => (hfwd h).2⟩
      · -- header line
        have he : totalSubs (processLine s raw) = totalSubs s := by
          simp only [processLine, if_neg hblank, if_neg heq, if_pos hh]
          exact totalSubs_eq_of_options ho1
        refine ⟨⟨fun h => by rw [he] at h; omega, ?_⟩,
                fun h => by rw [he] at h; omega⟩
        rintro ⟨ci, lp, b, a, -, -, -, hhead, -, -⟩
        exact absurd hhead hh

/-! ## Name and choice invariants of the parser -/

theorem namesOK_appendChoice {opts : List OptionRecord} (h : NamesOK opts)
    (ri si : Nat) (ch : Choice) : NamesOK (appendChoice opts ri si ch) := by
  intro r hr
  rcases mem_updateAt _ _ _ _ hr with hr | ⟨y, hy, rfl⟩
  · exact h r hr
  · obtain ⟨hy1, hy2⟩ := h y hy
    refine ⟨hy1, ?_⟩
    intro p hp
    rcases mem_updateAt _ _ _ _ hp with hp | ⟨q, hq, rfl⟩
    · exact hy2 p hp
    · exact hy2 q hq

theorem namesOK_append {opts : List OptionRecord} (h : NamesOK opts)
    {r : OptionRecord} (h1 : r.name ≠ []) (h2 : r.name.head? = some '-')
    (h3 : r.sub_options = []) : NamesOK (opts ++ [r]) := by
  intro x hx
  rcases List.mem_append.mp hx with hx | hx
  · exact h x hx
  · obtain rfl : x = r := by simpa using hx
    refine ⟨⟨h1, h2⟩, ?_⟩
    intro p hp
    rw [h3] at hp
    simp at hp

theorem namesOK_appendSub {opts : List OptionRecord} (h : NamesOK opts)
    {ri : Nat} {p : PassOption} (h1 : p.name ≠ [])
    (h2 : p.name.head? ≠ some '-') : NamesOK (appendSub opts ri p) := by
  intro r hr
  rcases mem_updateAt _ _ _ _ hr with hr | ⟨y, hy, rfl⟩
  · exact h r hr
  · obtain ⟨hy1, hy2⟩ := h y hy
    refine ⟨hy1, ?_⟩
    intro q hq
    rcases List.mem_append.mp hq with hq | hq
    · exact hy2 q hq
    · obtain rfl : q = p := by simpa using hq
      exact ⟨h1, h2⟩

theorem choicesOK_appendChoice {opts : List OptionRecord} (h : ChoicesOK opts)
    {ri si : Nat} {ch : Choice} (hv : ch.value ≠ []) :
    ChoicesOK (appendChoice opts ri si ch) := by
  intro r hr
  rcases mem_updateAt _ _ _ _ hr with hr | ⟨y, hy, rfl⟩
  · exact h r hr
  · obtain ⟨hy1, hy2⟩ := h y hy
    refine ⟨hy1, ?_⟩
    intro p hp
    rcases mem_updateAt _ _ _ _ hp with hp | ⟨q, hq, rfl⟩
    · exact hy2 p hp
    · intro c hc
      rcases List.mem_append.mp hc with hc | hc
      · exact hy2 q hq c hc
      · obtain rfl : c = ch := by simpa using hc
        exact hv

theorem choicesOK_append {opts : List OptionRecord} (h : ChoicesOK opts)
    {r : OptionRecord} (h1 : r.choices = []) (h2 : r.sub_options = []) :
    ChoicesOK (opts ++ [r]) := by
  intro x hx
  rcases List.mem_append.mp hx with hx | hx
  · exact h x hx
  · obtain rfl : x = r := by simpa using hx
    constructor
    · intro c hc; rw [h1] at hc; simp at hc
    · intro p hp; rw [h2] at hp; simp at hp

theorem choicesOK_appendSub {opts : List OptionRecord} (h : ChoicesOK opts)
    {ri : Nat} {p : PassOption} (hp : p.choices = []) :
    ChoicesOK (appendSub opts ri p) := by
  intro r hr
  rcases mem_updateAt _ _ _ _ hr with hr | ⟨y, hy, rfl⟩
  · exact h r hr
  · obtain ⟨hy1, hy2⟩ := h y hy
    refine ⟨hy1, ?_⟩
    intro q hq
    rcases List.mem_append.mp hq with hq | hq
    · exact hy2 q hq
    · obtain rfl : q = p := by simpa using hq
      intro c hc
      rw [hp] at hc
      simp at hc

theorem processLine_namesOK (s : PState) (raw : Str)
    (h : NamesOK s.options) : NamesOK (processLine s raw).options := by
  obtain ⟨ho1, -, -, -⟩ :=
    pipelineRevert_fields s (raw.length - (pyLStrip raw).length)
  have hs1 : NamesOK
      (pipelineRevert s (raw.length - (pyLStrip raw).length)).options := by
    rw [ho1]; exact h
  by_cases hblank : pyLStrip raw = []
  · simp only [processLine, if_pos hblank]
    exact h
  · by_cases heq : (pyLStrip raw).head? = some '='
    · simp only [processLine, if_neg hblank, if_pos heq]
      rcases handleChoice_options
          (pipelineRevert s (raw.length - (pyLStrip raw).length))
          (pyLStrip raw) with hcc | ⟨ri, si, ch, hv, hcc⟩
      · rw [hcc]; exact hs1
      · rw [hcc]; exact namesOK_appendChoice hs1 ri si ch
    · by_cases hh : (pyLStrip raw).head? = some '-'
      · have hne2 : ¬((pyLStrip raw).head? ≠ some '-') := by simp [hh]
        simp only [processLine, if_neg hblank, if_neg heq, if_neg hne2]
        rcases handleOptLine_shape
            (pipelineRevert s (raw.length - (pyLStrip raw).length))
            (pyLStrip raw) (raw.length - (pyLStrip raw).length) with
          h1 | h2 | ⟨b, a, hsp, hop, hnm, h3⟩ |
          ⟨ci, b, a, hc1, hsp, hpi, hnm, hpn, h4⟩
        · rw [h1]; exact hs1
        · rw [h2]; exact hs1
        · rw [h3]
          have hbh := splitFirst_head hsp hh (by decide)
          have hopb := pyStrip_head hbh.2 (by decide)
          have hdn := decode_option_name_dash hopb.2
          exact namesOK_append hs1 hdn.1 hdn.2 rfl
        · rw [h4]
          exact namesOK_appendSub hs1 hpn (pyLStripChar_head_ne hpn)
      · simp only [processLine, if_neg hblank, if_neg heq, if_pos hh]
        exact hs1

theorem processLine_choicesOK (s : PState) (raw : Str)
    (h : ChoicesOK s.options) : ChoicesOK (processLine s raw).options := by
  obtain ⟨ho1, -, -, -⟩ :=
    pipelineRevert_fields s (raw.length - (pyLStrip raw).length)
  have hs1 : ChoicesOK
      (pipelineRevert s (raw.length - (pyLStrip raw).length)).options := by
    rw [ho1]; exact h
  by_cases hblank : pyLStrip raw = []
  · simp only [processLine, if_pos hblank]
    exact h
  · by_cases heq : (pyLStrip raw).head? = some '='
    · simp only [processLine, if_neg hblank, if_pos heq]
      rcases handleChoice_options
          (pipelineRevert s (raw.length - (pyLStrip raw).length))
          (pyLStrip raw) with hcc | ⟨ri, si, ch, hv, hcc⟩
      · rw [hcc]; exact hs1
      · rw [hcc]; exact choicesOK_appendChoice hs1 hv
    · by_cases hh : (pyLStrip raw).head? = some '-'
      · have hne2 : ¬((pyLStrip raw).head? ≠ some '-') := by simp [hh]
        simp only [processLine, if_neg hblank, if_neg heq, if_neg hne2]
        rcases handleOptLine_shape
            (pipelineRevert s (raw.length - (pyLStrip raw).length))
            (pyLStrip raw) (raw.length - (pyLStrip raw).length) with
          h1 | h2 | ⟨b, a, hsp, hop, hnm, h3⟩ |
          ⟨ci, b, a, hc1, hsp, hpi, hnm, hpn, h4⟩
        · rw [h1]; exact hs1
        · rw [h2]; exact hs1
        · rw [h3]
          exact choicesOK_append hs1 rfl rfl
        · rw [h4]
          exact choicesOK_appendSub hs1 rfl
      · simp only [processLine, if_neg hblank, if_neg heq, if_pos hh]
        exact hs1

theorem parseLines_namesOK (ls : List Str) : NamesOK (parseLines ls).options := by
  suffices hgen : ∀ s, NamesOK s.options → NamesOK ((ls.foldl processLine s).options) by
    refine hgen initState ?_
    intro r hr
    simp [initState] at hr
  induction ls with
  | nil => intro s hs; exact hs
  | cons x xs ih => intro s hs; exact ih _ (processLine_namesOK s x hs)

theorem parseLines_choicesOK (ls : List Str) :
    ChoicesOK (parseLines ls).options := by
  suffices hgen : ∀ s, ChoicesOK s.options →
      ChoicesOK ((ls.foldl processLine s).options) by
    refine hgen initState ?_
    intro r hr
    simp [initState] at hr
  induction ls with
  | nil => intro s hs; exact hs
  | cons x xs ih => intro s hs; exact ih _ (processLine_choicesOK s x hs)

/-! ## Order preservation of the parser -/

theorem map_name_appendChoice (opts : List OptionRecord) (ri si : Nat)
    (ch : Choice) :
    (appendChoice opts ri si ch).map OptionRecord.name
      = opts.map OptionRecord.name := by
  unfold appendChoice
  apply map_updateAt
  intro x
  rfl

theorem map_name_appendSub (opts : List OptionRecord) (ri : Nat)
    (p : PassOption) :
    (appendSub opts ri p).map OptionRecord.name
      = opts.map OptionRecord.name := by
  unfold appendSub
  apply map_updateAt
  intro x
  rfl

theorem processLine_names_mono (s : PState) (raw : Str) :
    (processLine s raw).options.map OptionRecord.name
        = s.options.map OptionRecord.name ∨
    ∃ n, (processLine s raw).options.map OptionRecord.name
        = s.options.map OptionRecord.name ++ [n] := by
  obtain ⟨ho1, -, -, -⟩ :=
    pipelineRevert_fields s (raw.length - (pyLStrip raw).length)
  by_cases hblank : pyLStrip raw = []
  · left
    simp only [processLine, if_pos hblank]
  · by_cases heq : (pyLStrip raw).head? = some '='
    · left
      simp only [processLine, if_neg hblank, if_pos heq]
      rcases handleChoice_options
          (pipelineRevert s (raw.length - (pyLStrip raw).length))
          (pyLStrip raw) with hcc | ⟨ri, si, ch, hv, hcc⟩
      · rw [hcc, ho1]
      · rw [hcc, map_name_appendChoice, ho1]
    · by_cases hh : (pyLStrip raw).head? = some '-'
      · have hne2 : ¬((pyLStrip raw).head? ≠ some '-') := by simp [hh]
        have he : processLine s raw =
            handleOptLine (pipelineRevert s (raw.length - (pyLStrip raw).length))
              (pyLStrip raw) (raw.length - (pyLStrip raw).length) := by
          simp only [processLine, if_neg hblank, if_neg heq, if_neg hne2]
        generalize hs1 : pipelineRevert s (raw.length - (pyLStrip raw).length) = s1
          at he ho1
        rcases handleOptLine_shape s1 (pyLStrip raw)
            (raw.length - (pyLStrip raw).length) with
          h1 | h2 | ⟨b, a, hsp, hop, hnm, h3⟩ |
          ⟨ci, b, a, hc1, hsp, hpi, hnm, hpn, h4⟩
        · left
          rw [he, h1]
          show s1.options.map OptionRecord.name = s.options.map OptionRecord.name
          rw [ho1]
        · left
          rw [he, h2, ho1]
        · right
          refine ⟨(decode_option (pyStrip b)).name, ?_⟩
          rw [he, h3]
          simp [newTopLevel, ho1]
        · left
          rw [he, h4]
          exact (map_name_appendSub s1.options ci _).trans (by rw [ho1])
      · left
        simp only [processLine, if_neg hblank, if_neg heq, if_pos hh]
        exact congrArg (List.map OptionRecord.name) ho1

theorem foldl_names_mono (ms : List Str) : ∀ s : PState,
    ∃ u, ((ms.foldl processLine s).options).map OptionRecord.name
      = s.options.map OptionRecord.name ++ u := by
  induction ms with
  | nil => intro s; exact ⟨[], by simp⟩
  | cons m rest ih =>
    intro s
    obtain ⟨u, hu⟩ := ih (processLine s m)
    rcases processLine_names_mono s m with hm | ⟨n, hm⟩
    · exact ⟨u, by rw [List.foldl_cons, hu, hm]⟩
    · refine ⟨[n] ++ u, ?_⟩
      rw [List.foldl_cons, hu, hm]
      simp

theorem parseLines_names_mono (ls ms : List Str) :
    ∃ u, (parseLines (ls ++ ms)).options.map OptionRecord.name
      = (parseLines ls).options.map OptionRecord.name ++ u := by
  unfold parseLines
  rw [List.foldl_append]
  exact foldl_names_mono ms (ls.foldl processLine initState)

/-! ## Lookup characterization of the pass-options dict -/

theorem lookupD_cons (p : Str × Str) (d : List (Str × Str)) (k : Str) :
    lookupD (p :: d) k = if p.1 = k then some p.2 else lookupD d k := by
  by_cases hpk : p.1 = k <;> simp [lookupD, List.find?, hpk]

theorem lookupD_append_single (d : List (Str × Str)) (p : Str × Str) (k : Str) :
    lookupD (d ++ [p]) k =
      match lookupD d k with
      | some v => some v
      | none => if p.1 = k then some p.2 else none := by
  induction d with
  | nil =>
    rw [List.nil_append, lookupD_cons]
    rfl
  | cons q rest ih =>
    rw [List.cons_append, lookupD_cons, lookupD_cons]
    by_cases hqk : q.1 = k
    · rw [if_pos hqk, if_pos hqk]
    · rw [if_neg hqk, if_neg hqk]
      exact ih

theorem lookupD_not_found {d : List (Str × Str)} {k' : Str}
    (h : d.any (fun p => decide (p.1 = k')) = false) : lookupD d k' = none := by
  induction d with
  | nil => rfl
  | cons q rest ih =>
    simp only [List.any_cons, Bool.or_eq_false_iff] at h
    rw [lookupD_cons, if_neg (of_decide_eq_false h.1)]
    exact ih h.2

theorem lookupD_map_keep (d : List (Str × Str)) (k' v k : Str)
    (hkk : k' ≠ k) :
    lookupD (d.map (fun p => if p.1 = k' then (k', v) else p)) k
      = lookupD d k := by
  induction d with
  | nil => rfl
  | cons q rest ih =>
    by_cases hq : q.1 = k'
    · simp only [List.map_cons, if_pos hq, lookupD_cons]
      rw [if_neg (show ¬((k', v).1 = k) from hkk),
        if_neg (show ¬(q.1 = k) from by rw [hq]; exact hkk)]
      exact ih
    · simp only [List.map_cons, if_neg hq, lookupD_cons]
      by_cases hqk : q.1 = k
      · rw [if_pos hqk, if_pos hqk]
      · rw [if_neg hqk, if_neg hqk]
        exact ih

theorem lookupD_map_hit (d : List (Str × Str)) (k v : Str)
    (h : d.any (fun p => decide (p.1 = k)) = true) :
    lookupD (d.map (fun p => if p.1 = k then (k, v) else p)) k = some v := by
  induction d with
  | nil => simp at h
  | cons q rest ih =>
    by_cases hq : q.1 = k
    · simp only [List.map_cons, if_pos hq, lookupD_cons]
      simp
    · simp only [List.map_cons, if_neg hq, lookupD_cons, if_neg hq]
      apply ih
      simp only [List.any_cons] at h
      cases hd : decide (q.1 = k) with
      | true => exact absurd (of_decide_eq_true hd) hq
      | false => rw [hd] at h; simpa using h

theorem lookupD_dictInsert (d : List (Str × Str)) (k' v k : Str) :
    lookupD (dictInsert d k' v) k = if k' = k then some v else lookupD d k := by
  unfold dictInsert
  by_cases hany : d.any (fun p => decide (p.1 = k')) = true
  · rw [if_pos hany]
    by_cases hkk : k' = k
    · subst hkk
      rw [if_pos rfl]
      exact lookupD_map_hit d k' v hany
    · rw [if_neg hkk]
      exact lookupD_map_keep d k' v k hkk
  · rw [if_neg hany, lookupD_append_single]
    have hf : d.any (fun p => decide (p.1 = k')) = false := by
      revert hany
      cases d.any (fun p => decide (p.1 = k')) <;> simp
    by_cases hkk : k' = k
    · subst hkk
      rw [lookupD_not_found hf]
    · cases hl : lookupD d k <;> simp [hkk]

theorem lookupD_pass_fold (rs : List OptionRecord) :
    ∀ (acc : List (Str × Str)) (k : Str),
    lookupD (rs.foldl (fun d o => dictInsert d o.name
        (to_zsh_array (o.sub_options.map to_zsh_value))) acc) k =
      match lastSubSpec k rs with
      | some v => some v
      | none => lookupD acc k := by
  induction rs with
  | nil => intro acc k; rfl
  | cons o rest ih =>
    intro acc k
    rw [List.foldl_cons, ih]
    simp only [lastSubSpec]
    cases hrest : lastSubSpec k rest with
    | some v => rfl
    | none =>
      rw [lookupD_dictInsert]
      by_cases hok : o.name = k
      · rw [if_pos hok, if_pos hok]
      · rw [if_neg hok, if_neg hok]

/-! ## Claim theorems -/

/-- Claim C1 (code bug): the renderer does not escape parentheses in choice
descriptions.  For the choice description `basic (default)` the rendered
value expression is a double-parenthesized value:description list containing
`basic\\ (default)` — the space escaped but the parentheses left bare — and
it does not contain the token `basic\\ \\(default\\)` that the claim (and the
repository test `test_escape_value_description_that_has_paren`) expects. -/
theorem paren_escape_code_bug :
    (option_to_values parenOpt).2
      = "((improved:improved basic:basic\\ (default) none:none))".data
  ∧ hasSub "basic\\ \\(default\\)".data (option_to_values parenOpt).2 = false
  ∧ hasSub "basic\\ (default)".data (option_to_values parenOpt).2 = true := by
  decide

/-- Claim C2 (code bug): with the binary named `binary` (so the source's
literal-key cache lookup finds the entry), a changed modification time, and
any cached checksum digest — in particular the actual digest of the fresh
help text — `get_data` still rebuilds the payload: the source compares the
JSON-decoded digest against the freshly constructed hash object, which never
compare equal. -/
theorem checksum_reuse_code_bug (c0 : Str) :
    get_data (checksumEnv c0) = ⟨build_payload "HELP".data, true, true⟩
  ∧ (get_data (checksumEnv c0)).payload ≠ storedPayload := by
  have h : get_data (checksumEnv c0)
      = ⟨build_payload "HELP".data, true, true⟩ := rfl
  refine ⟨h, ?_⟩
  rw [h]
  decide

/-- Claim C3 (code bug): the cache entry is stored under the binary path but
looked up under the literal key `binary`, so even with an unchanged
modification time the stored payload is not reused: the help process runs
and the payload is rebuilt. -/
theorem mtime_reuse_code_bug :
    (get_data mtimeEnv).ranHelp = true
  ∧ (get_data mtimeEnv).builtPayload = true
  ∧ (get_data mtimeEnv).payload ≠ storedPayload := by
  decide

/-- Claim C4 (code bug): `to_zsh_value` escapes only colons in the
description, so the `]` characters of a sub-option description survive
unescaped — the rendered spec contains no `\\]` at all, contradicting the
claim (and the repository test `test_value_list_descr_with_brackets`) for
sub-option specs; the full pipeline indeed emits this spec. -/
theorem bracket_escape_code_bug :
    to_zsh_value bracketSub
      = "lhs-transpose-inner-blocks[Transpose LHS inner block layout [mb][kb] -> [kb][mb]]".data
  ∧ hasSub "\\]".data (to_zsh_value bracketSub) = false
  ∧ lookupD (build_payload bracketHelp).pass_options
        "--linalg-block-pack-matmul".data = some (to_zsh_value bracketSub) := by
  decide

/-- Claim C5 counterexample: on the spec's end-to-end example line the
parser keeps the angle brackets in the value hint (`<type>`, not `type`),
and the renderer emits the plain separator, not the `=-` grouped one. -/
theorem end_to_end_example_counterexample :
    (parse_help exLineC5).map OptionRecord.value_hint = ["<type>".data]
  ∧ ("<type>".data : Str) ≠ "type".data
  ∧ (parse_help exLineC5).map to_zsh_optspec
      = ["--my-flag[Does a thing]:type:".data]
  ∧ ("--my-flag[Does a thing]:type:".data : Str)
      ≠ "--my-flag=-[Does a thing]:type:".data := by
  decide

/-- Claim C5 (amended): the example line parses to exactly one record, with
name `--my-flag`, style `attached`, value hint `<type>` (angle brackets
preserved) and description `Does a thing`; its rendered spec is
`--my-flag[Does a thing]:type:` with the plain descriptor bracket.  In
general the `=-` grouped separator appears exactly when the record has
choices or sub-options. -/
theorem end_to_end_example_amended :
    parse_help exLineC5 = [exRecC5]
  ∧ to_zsh_optspec exRecC5 = "--my-flag[Does a thing]:type:".data
  ∧ (∀ opt : OptionRecord, opt.choices = [] → opt.sub_options = [] →
      ∃ rest, to_zsh_optspec opt
        = repetition_star opt ++ opt.name ++ '[' :: rest)
  ∧ (∀ opt : OptionRecord, opt.choices ≠ [] ∨ opt.sub_options ≠ [] →
      ∃ rest, to_zsh_optspec opt
        = repetition_star opt ++ opt.name ++ '=' :: '-' :: '[' :: rest) := by
  refine ⟨by decide, by decide, ?_, ?_⟩
  · intro opt h1 h2
    refine ⟨escRBracket (esc 1 opt.description) ++ ']' :: ':' ::
      esc 1 (option_to_values opt.toOptLike).1 ++ ':' ::
      (option_to_values opt.toOptLike).2, ?_⟩
    simp [to_zsh_optspec, h1, h2]
  · intro opt h
    have hsep : opt.choices.length > 0 ∨ opt.sub_options.length > 0 := by
      rcases h with h | h
      · exact Or.inl (List.length_pos.mpr h)
      · exact Or.inr (List.length_pos.mpr h)
    refine ⟨escRBracket (esc 1 opt.description) ++ ']' :: ':' ::
      esc 1 (option_to_values opt.toOptLike).1 ++ ':' ::
      (option_to_values opt.toOptLike).2, ?_⟩
    simp [to_zsh_optspec, if_pos hsep]

/-- Claim C5 witness: the separator rule applied to the concretely parsed
example record. -/
theorem end_to_end_example_amended_witness :
    ∃ rest, to_zsh_optspec exRecC5
      = repetition_star exRecC5 ++ exRecC5.name ++ '[' :: rest :=
  end_to_end_example_amended.2.2.1 exRecC5 rfl rfl

/-- Claim C6 counterexample: in `dashOnlyHelp` the third line satisfies all
the claimed sub-option conditions (open record at indent 2, line indent 4,
dash-initial, ` - ` separator present), yet no sub-option is recorded: the
decoded name `--` strips to the empty string. -/
theorem sub_option_rule_counterexample :
    (parse_help dashOnlyHelp).map (fun r => (r.name, r.sub_options.length))
      = [("--my-pass".data, 0)]
  ∧ pyLStrip "    -- - sub".data ≠ []
  ∧ (pyLStrip "    -- - sub".data).head? = some '-'
  ∧ splitFirst " - ".data (pyLStrip "    -- - sub".data)
      = some ("--".data, "sub".data)
  ∧ ("    -- - sub".data : Str).length
      - (pyLStrip "    -- - sub".data).length = 2 + 2 := by
  decide

/-- Claim C6 witness: the sub-option rule applied at a concrete state and
line (the recorded last-top-level indent is unchanged by the recording). -/
theorem sub_option_rule_amended_witness :
    (processLine subRuleState subRuleLine).lastPassIndent
      = subRuleState.lastPassIndent :=
  ((sub_option_rule_amended subRuleState subRuleLine (by decide)).2
    (by decide)).2

/-- Claim C7 (amended): the option specs are exactly the rendered specs of
the kept (non-LLVM) records; processing additional lines only appends to the
record sequence (order preservation at line granularity); and the
`pass_options` dict maps a name to the 0x00-joined sub-option specs of the
LAST kept record bearing it — for a repeated name the earlier record's
sub-options are overwritten. -/
theorem payload_build_amended (t : Str) :
    (build_payload t).option_specs
      = to_zsh_array ((keptRecords t).map to_zsh_optspec)
  ∧ (∀ ls ms : List Str, ∃ u,
      (parseLines (ls ++ ms)).options.map OptionRecord.name
        = (parseLines ls).options.map OptionRecord.name ++ u)
  ∧ (∀ k : Str, lookupD (build_payload t).pass_options k
        = lastSubSpec k (keptRecords t)) := by
  refine ⟨rfl, parseLines_names_mono, ?_⟩
  intro k
  have h := lookupD_pass_fold (keptRecords t) [] k
  rw [show (build_payload t).pass_options
      = (keptRecords t).foldl (fun d o => dictInsert d o.name
          (to_zsh_array (o.sub_options.map to_zsh_value))) [] from rfl, h]
  cases lastSubSpec k (keptRecords t) <;> rfl

/-- Claim C7 counterexample: with two equally named pass records, the first
of which has a sub-option, the dict keeps only the last record's (empty)
sub-option specs, so the first kept record's name does not map to its own
rendered sub-options. -/
theorem payload_build_counterexample :
    (parse_help dupHelp).map
        (fun r => (r.name, to_zsh_array (r.sub_options.map to_zsh_value)))
      = [("--p".data, "sub[s]".data), ("--p".data, ([] : Str))]
  ∧ (parse_help dupHelp).all (fun r => decide (r.category ≠ .LLVM)) = true
  ∧ lookupD (build_payload dupHelp).pass_options "--p".data = some []
  ∧ ("sub[s]".data : Str) ≠ [] := by
  decide

/-- Claim C8: every parsed top-level record has a non-empty, dash-initial
name, and every recorded sub-option has a non-empty name that does not start
with a dash (leading dashes stripped). -/
theorem parse_names_invariant (text : Str) :
    ∀ r ∈ parse_help text, (r.name ≠ [] ∧ r.name.head? = some '-') ∧
      ∀ p ∈ r.sub_options, p.name ≠ [] ∧ p.name.head? ≠ some '-' :=
  parseLines_namesOK (pySplitlines text)

/-- Claim C8 witness: the invariant evaluated on a concrete parse. -/
theorem parse_names_invariant_witness :
    passRec ∈ parse_help passHelp
  ∧ ((passRec.name ≠ [] ∧ passRec.name.head? = some '-') ∧
      ∀ p ∈ passRec.sub_options, p.name ≠ [] ∧ p.name.head? ≠ some '-') :=
  ⟨by decide, parse_names_invariant passHelp passRec (by decide)⟩

/-- Claim C9 counterexample: `decode_option` returns an empty name for the
non-empty option part `=x`. -/
theorem decode_empty_name_counterexample :
    (decode_option "=x".data).name = [] ∧ ("=x".data : Str) ≠ [] := by
  decide

/-- Claim C9 (amended): an empty decoded name can arise from non-empty
option parts (such as whitespace-only strings or `=x`); but for every option
part beginning with a dash — which covers everything `parse_help` passes to
the decoder — the decoded name is non-empty and begins with that dash. -/
theorem decode_empty_name_amended (l : Str) (h : l.head? = some '-') :
    (decode_option l).name ≠ [] ∧ (decode_option l).name.head? = some '-' :=
  decode_option_name_dash h

/-- Claim C9 witness: the amended decoder property at a concrete input. -/
theorem decode_empty_name_amended_witness :
    ("-x".data : Str).head? = some '-'
  ∧ ((decode_option "-x".data).name ≠ []
      ∧ (decode_option "-x".data).name.head? = some '-') :=
  ⟨by decide, decode_empty_name_amended "-x".data (by decide)⟩

/-- Claim C10: every choice recorded by the parser — all of which live on
records or their sub-options — has a non-empty value; an `=` line whose
value sanitizes to empty adds no choice. -/
theorem choice_value_invariant (text : Str) :
    ∀ r ∈ parse_help text, (∀ c ∈ r.choices, c.value ≠ []) ∧
      ∀ p ∈ r.sub_options, ∀ c ∈ p.choices, c.value ≠ [] :=
  parseLines_choicesOK (pySplitlines text)

/-- Claim C10 witness: the invariant evaluated on a concrete parse with one
recorded choice. -/
theorem choice_value_invariant_witness :
    choiceRec ∈ parse_help choiceHelp
  ∧ ((∀ c ∈ choiceRec.choices, c.value ≠ []) ∧
      ∀ p ∈ choiceRec.sub_options, ∀ c ∈ p.choices, c.value ≠ []) :=
  ⟨by decide, choice_value_invariant choiceHelp choiceRec (by decide)⟩

end MlirComp
